import Mathlib

/-!
Verification of the log-structured key-value store in `anujsrv/rust-kv`.

The development shallowly embeds the storage engine of
`src/engines/store.rs` (the generic `Store<K, V>`: segment files, the
in-memory index, the shared writer, per-handle reader caches, inline
compaction and recovery by replay), the thin `KvStore` engine wrappers of
`src/engines/kvs.rs`, the request dispatcher of `src/server.rs` with the
error display strings of `src/error.rs`, and the worker loop of
`src/threadpool.rs`.

Modelling conventions:
* Rust `u32` / `u64` quantities (segment ids, byte offsets, the
  uncompacted counter) are modelled as `Nat`; the engine only ever adds
  small increments to them, and no claim depends on wrap-around.
* A segment file is its byte content, a `List Nat`; the directory is the
  association list `Files` from segment id to content.
* The serde_json record serialization is an external crate; the spec
  fixes only a self-delimiting format (spec section 4.1).  It is
  abstracted as a `Codec` (an `enc`/`dec` pair), with `natCodec` as a
  concrete executable self-delimiting instance used for evaluation.
* Fallible Rust functions return an `Except` value paired with the state
  reached when the error surfaced, mirroring that Rust mutations made
  before an early `?` return persist.
-/

namespace RustKv

/-- A byte of a segment file.  Modelled as `Nat`. -/
abbrev Byte := Nat

/-- The content of one `<id>.log` segment file. -/
abbrev Seg := List Byte

/-- `Entry<K, V>` from `src/entry.rs`: the tagged record sum with
variants `Set {key, val}` and `Rm {key}`. -/
inductive Entry (K V : Type) where
  | set (key : K) (val : V)
  | rm (key : K)
deriving DecidableEq

/-- `EntryOffset` from `src/entry.rs`: `(file_id, start, end)` byte range
of one record.  The Rust field `end` is a Lean keyword and is called
`stop` here. -/
structure EntryOffset where
  file_id : Nat
  start : Nat
  stop : Nat
deriving DecidableEq, Repr

/-- The record codec.  The source serializes records with
`serde_json::to_string` and decodes them with `serde_json::from_reader` /
`Deserializer::into_iter`; the spec leaves the concrete format open and
requires only that the encoding be self-delimiting.  `dec` reads one
record from the front of a byte stream and reports how many bytes it
consumed (the source recovers this via `StreamDeserializer::byte_offset`). -/
structure Codec (K V : Type) where
  enc : Entry K V → List Byte
  dec : List Byte → Option (Entry K V × Nat)

/-- The error taxonomy of `src/error.rs` that the engine paths can
produce.  `doesNotExist` is `Error::DoesNotExist`; `io` stands for
`Error::Io` (payload abstracted); `serde` for `Error::Serde`.
`missingReader` models the `panic!("no reader for file_id")` in
`Writer::compact` — a Rust panic, not a returned error; it is kept as a
distinguished outcome so that theorems can tell it apart. -/
inductive Error (K : Type) where
  | io
  | serde
  | doesNotExist (key : K)
  | missingReader (file_id : Nat)
deriving DecidableEq

/-! ### Directory model: association list from segment id to content -/

/-- The directory: segment id to file content. -/
abbrev Files := List (Nat × Seg)

/-- Look up a segment file by id (first match). -/
def fsLookup : Files → Nat → Option Seg
  | [], _ => none
  | p :: rest, id => if p.1 = id then some p.2 else fsLookup rest id

/-- `OpenOptions::new().create(true).append(true)` (`init_writer` /
`Writer::new` in `src/engines/store.rs`): creates the file empty when it
is absent, keeps the existing content when it is present. -/
def fsCreateAppendMode (fs : Files) (id : Nat) : Files :=
  if (fsLookup fs id).isSome then fs else fs ++ [(id, [])]

/-- Appending bytes to the file the writer's descriptor is bound to.  If
the id is absent from the directory the write still succeeds in Rust (the
descriptor points at an unlinked inode) but the directory is unchanged. -/
def fsAppend (fs : Files) (id : Nat) (b : List Byte) : Files :=
  fs.map (fun p => if p.1 = id then (p.1, p.2 ++ b) else p)

/-- Remove every entry of the given id from the directory. -/
def fsErase : Files → Nat → Files
  | [], _ => []
  | p :: rest, id => if p.1 = id then fsErase rest id else p :: fsErase rest id

/-- `fs::remove_file`: fails (`Err(Io)`) when the file is absent. -/
def fsRemoveFile (fs : Files) (id : Nat) : Option Files :=
  if (fsLookup fs id).isSome then some (fsErase fs id) else none

/-! ### Index model

`Store.index` is a `crossbeam_skiplist::SkipMap<K, EntryOffset>`: a map
with insert-or-replace, remove returning the removed entry, and iteration
in ascending key order.  It is modelled as an association list kept
sorted by key. -/

variable {K V : Type} [LinearOrder K]

/-- The index: key to record offset, sorted ascending by key. -/
abbrev Index (K : Type) := List (K × EntryOffset)

/-- `SkipMap::get`. -/
def idxLookup : Index K → K → Option EntryOffset
  | [], _ => none
  | (k', v) :: rest, k => if k = k' then some v else idxLookup rest k

/-- `SkipMap::insert`: insert or replace, keeping ascending key order. -/
def idxInsert : Index K → K → EntryOffset → Index K
  | [], k, v => [(k, v)]
  | (k', v') :: rest, k, v =>
    if k < k' then (k, v) :: (k', v') :: rest
    else if k = k' then (k, v) :: rest
    else (k', v') :: idxInsert rest k v

/-- `SkipMap::remove`: returns the removed entry's value (if any) and the
remaining map. -/
def idxRemove : Index K → K → Option EntryOffset × Index K
  | [], _ => (none, [])
  | (k', v') :: rest, k =>
    if k = k' then (some v', rest)
    else ((idxRemove rest k).1, (k', v') :: (idxRemove rest k).2)

/-- `SkipMap::contains_key`. -/
def idxContains (ix : Index K) (k : K) : Bool :=
  (idxLookup ix k).isSome

/-! ### Engine state

One `Store<K, V>` handle from `src/engines/store.rs` together with the
directory it operates on.  The `Writer` fields are inlined
(`wfile_id` = `Writer.file_id`, `wpos` = `Writer.pos`, `wuncompacted` =
`Writer.uncompacted`).  `wtarget` records which segment file the
`BufWriter`'s descriptor is bound to: `Writer::new` binds it to
`file_id`, but `Writer::compact` re-binds it (`self.writer =
init_writer(..)`) without touching `self.file_id`, so the two can
diverge.  `readers` is the handle's `RefCell<HashMap<u32, Reader>>`
cache, modelled as the list of cached segment ids (a `Reader` only holds
a seekable descriptor, so the id is all that matters). -/
structure StoreSt (K : Type) where
  files : Files
  readers : List Nat
  wfile_id : Nat
  wtarget : Nat
  wpos : Nat
  wuncompacted : Nat
  index : Index K
  last_compaction_point : Nat
deriving DecidableEq

/-- `COMPACTION_THRESHOLD` from `src/engines/store.rs`. -/
def COMPACTION_THRESHOLD : Nat := 1024 * 1024

/-- `HashMap::insert` of a reader handle: cache the id if not cached. -/
def insertReader (rs : List Nat) (id : Nat) : List Nat :=
  if id ∈ rs then rs else rs ++ [id]

/-- The loop body of `Store::close_stale_fds`: for each stale id, drop
the cached reader, then `fs::remove_file` (which fails with `Io` when
the file is already gone, aborting the loop there). -/
def closeStaleAux : List Nat → StoreSt K → Except (Error K) Unit × StoreSt K
  | [], st => (.ok (), st)
  | id :: rest, st =>
    match fsRemoveFile st.files id with
    | none => (.error .io, { st with readers := st.readers.filter (fun r => r ≠ id) })
    | some fs' =>
      closeStaleAux rest
        { st with readers := st.readers.filter (fun r => r ≠ id), files := fs' }

/-- `Store::close_stale_fds` (`src/engines/store.rs:144-158`): collect
the cached reader ids below the `last_compaction_point` watermark, then
drop each and unlink its segment file. -/
def closeStaleFds (st : StoreSt K) : Except (Error K) Unit × StoreSt K :=
  closeStaleAux (st.readers.filter (fun r => r < st.last_compaction_point)) st

variable (c : Codec K V)

/-- `Reader::read` (`src/engines/store.rs:265-277`): seek to `start`,
read at most `end - start` bytes, decode one record with
`serde_json::from_reader` (which demands that the limited stream hold
exactly one record), return the value if it is a `Set`, `None` if it is
a `Rm`. -/
def readRecord (seg : Seg) (start stop : Nat) : Except (Error K) (Option V) :=
  let slice := (seg.drop start).take (stop - start)
  match c.dec slice with
  | some (e, n) =>
    if n = slice.length then
      match e with
      | .set _ v => .ok (some v)
      | .rm _ => .ok none
    else .error .serde
  | none => .error .serde

/-- `Store::read` (`src/engines/store.rs:96-105`): first
`close_stale_fds`, then make sure a reader for `file_id` is cached
(`Reader::new` fails with `Io` when the segment file does not exist),
then `Reader::read` the byte range. -/
def Store.read (st : StoreSt K) (file_id start stop : Nat) :
    Except (Error K) (Option V) × StoreSt K :=
  match closeStaleFds st with
  | (.error e, st1) => (.error e, st1)
  | (.ok _, st1) =>
    if file_id ∈ st1.readers then
      match fsLookup st1.files file_id with
      | some seg => (readRecord c seg start stop, st1)
      | none => (.error .io, st1)
    else
      match fsLookup st1.files file_id with
      | none => (.error .io, st1)
      | some seg =>
        (readRecord c seg start stop,
          { st1 with readers := insertReader st1.readers file_id })

/-- One step of the compaction loop of `Writer::compact`
(`src/engines/store.rs:226-233`): for each entry of the index (ascending
key order), look up the cached reader for the entry's segment
(`panic!("no reader for file_id")` when absent — `missingReader` here),
`Reader::read_into` copies the byte range into segment `C`, and the
index entry is re-inserted pointing at `(C, pos, pos + len)`.  The loop
iterates over the entries present when compaction started; re-inserting
an existing key replaces its value in place. -/
def compactLoop (C : Nat) :
    List (K × EntryOffset) → Nat → StoreSt K → Except (Error K) Unit × StoreSt K
  | [], _, st => (.ok (), st)
  | (k, off) :: rest, pos, st =>
    if off.file_id ∈ st.readers then
      match fsLookup st.files off.file_id with
      | some seg =>
        let bytes := (seg.drop off.start).take (off.stop - off.start)
        let len := bytes.length
        compactLoop C rest (pos + len)
          { st with
            files := fsAppend st.files C bytes,
            index := idxInsert st.index k ⟨C, pos, pos + len⟩ }
      | none => (.error .io, st)
    else (.error (.missingReader off.file_id), st)

/-- `Writer::compact` (`src/engines/store.rs:212-243`): open a writer and
reader on the compaction output `C = file_id + 1`, copy every live index
entry into `C` while re-pointing the index at it, then bind the active
writer's descriptor to the fresh segment `C + 1`, reset `pos` and
`uncompacted` and cache a reader for it.  Note that the source updates
`self.writer`, `self.pos` and `self.uncompacted` but never
`self.file_id`, so `wfile_id` deliberately keeps its old value here. -/
def Writer.compact (st : StoreSt K) (file_id : Nat) :
    Except (Error K) Nat × StoreSt K :=
  let C := file_id + 1
  let st1 : StoreSt K :=
    { st with files := fsCreateAppendMode st.files C,
              readers := insertReader st.readers C }
  match compactLoop C st1.index 0 st1 with
  | (.error e, st2) => (.error e, st2)
  | (.ok _, st2) =>
    let N := C + 1
    (.ok C,
      { st2 with
        files := fsCreateAppendMode st2.files N,
        readers := insertReader st2.readers N,
        wtarget := N,
        wpos := 0,
        wuncompacted := 0 })

/-- The compaction branch of `Store::write`
(`src/engines/store.rs:118-122`): run `Writer::compact`, store the
returned id into the `last_compaction_point` watermark, then
`close_stale_fds`. -/
def compactionCycle (st : StoreSt K) (curr : Nat) :
    Except (Error K) Unit × StoreSt K :=
  match Writer.compact st curr with
  | (.error e, st1) => (.error e, st1)
  | (.ok newId, st1) =>
    closeStaleFds { st1 with last_compaction_point := newId }

/-- The length of the old record displaced by a write of key `k`:
`old_val.value().end - old_val.value().start` when the key is present,
nothing otherwise (`src/engines/store.rs:113-115`). -/
def displacedLen (st : StoreSt K) (k : K) : Nat :=
  match idxLookup st.index k with
  | some old => old.stop - old.start
  | none => 0

/-- The state reached by `Store::write` just before its compaction
check: `Writer::write` appends `b` to the writer's bound segment and
advances `pos`; the displaced record's length is added to `uncompacted`;
the key is indexed at `(writer.file_id, pos, end_pos)`
(`src/engines/store.rs:108-116`). -/
def writeUpdated (st : StoreSt K) (k : K) (b : List Byte) : StoreSt K :=
  { st with
    files := fsAppend st.files st.wtarget b,
    wpos := st.wpos + b.length,
    wuncompacted := st.wuncompacted + displacedLen st k,
    index := idxInsert st.index k ⟨st.wfile_id, st.wpos, st.wpos + b.length⟩ }

/-- `Store::write` (`src/engines/store.rs:107-125`): append and index the
record, then, if the uncompacted counter exceeds the threshold, run the
compaction cycle inline before returning. -/
def Store.write (st : StoreSt K) (k : K) (b : List Byte) :
    Except (Error K) Unit × StoreSt K :=
  if (writeUpdated st k b).wuncompacted > COMPACTION_THRESHOLD then
    compactionCycle (writeUpdated st k b) st.wfile_id
  else (.ok (), writeUpdated st k b)

/-- `Store::remove` (`src/engines/store.rs:127-142`): fail with
`DoesNotExist` when the key is not in the index; otherwise encode a `Rm`
record, add the removed entry's byte length to `uncompacted`, and hand
the encoded record to `Store::write` (which appends it — and re-inserts
the key, pointing at the `Rm` record). -/
def Store.remove (st : StoreSt K) (k : K) :
    Except (Error K) Unit × StoreSt K :=
  if idxContains st.index k then
    Store.write
      (match (idxRemove st.index k).1 with
       | some old =>
         { st with index := (idxRemove st.index k).2,
                   wuncompacted := st.wuncompacted + (old.stop - old.start) }
       | none => { st with index := (idxRemove st.index k).2 })
      k (c.enc (.rm k))
  else (.error (.doesNotExist k), st)

/-- `KvStore::set`: encode a `Set` record and hand it to `Store::write`
(cf. `src/engines/kvs.rs:86-106`, with the index/counter bookkeeping and
the compaction trigger living in the generic `Store::write`). -/
def KvStore.set (st : StoreSt K) (k : K) (v : V) :
    Except (Error K) Unit × StoreSt K :=
  Store.write st k (c.enc (.set k v))

/-- `KvStore::get` (cf. `src/engines/kvs.rs:128-137`): `Ok(None)` when
the key is not in the index, otherwise `Store::read` at the indexed
offset. -/
def KvStore.get (st : StoreSt K) (k : K) :
    Except (Error K) (Option V) × StoreSt K :=
  match idxLookup st.index k with
  | none => (.ok none, st)
  | some off => Store.read c st off.file_id off.start off.stop

/-- `KvStore::remove` delegates to `Store::remove`. -/
def KvStore.remove (st : StoreSt K) (k : K) :
    Except (Error K) Unit × StoreSt K :=
  Store.remove c st k

/-! ### Recovery: `get_inactive_file_ids`, `Reader::load_index`,
`Store::load_inactive_files`, `Store::new` -/

/-- `get_inactive_file_ids` (`src/engines/store.rs:321-345`): the numeric
ids of the `*.log` files of the directory, sorted ascending
(`file_ids.sort()`). -/
def getInactiveFileIds (fs : Files) : List Nat :=
  List.insertionSort (· ≤ ·) (fs.map (·.1))

/-- The streaming loop of `Reader::load_index`
(`src/engines/store.rs:286-316`): decode records one after the other from
`cmd_start`; a `Set` indexes `(file_id, cmd_start, cmd_end)` and counts a
displaced prior offset as stale; a `Rm` removes the key, counting both
the displaced offset and its own bytes as stale.  A decode failure on a
non-empty remainder is `Err(Serde)`.  The `fuel` argument bounds the
recursion by the number of bytes left plus one; it never runs out
because a decoder consuming zero bytes would already have failed the
stream. -/
def loadIndexAux (file_id : Nat) (seg : Seg) :
    Nat → Nat → Index K → Nat → Except (Error K) (Index K × Nat)
  | 0, _, _, _ => .error .serde
  | fuel + 1, cmd_start, ix, unc =>
    let rest := seg.drop cmd_start
    if rest.isEmpty then .ok (ix, unc)
    else
      match c.dec rest with
      | none => .error .serde
      | some (e, n) =>
        let cmd_end := cmd_start + n
        match e with
        | .set k _ =>
          let unc' :=
            match idxLookup ix k with
            | some old => unc + (old.stop - old.start)
            | none => unc
          loadIndexAux file_id seg fuel cmd_end
            (idxInsert ix k ⟨file_id, cmd_start, cmd_end⟩) unc'
        | .rm k =>
          let r := idxRemove ix k
          let unc' :=
            (match r.1 with
             | some old => unc + (old.stop - old.start)
             | none => unc) + (cmd_end - cmd_start)
          loadIndexAux file_id seg fuel cmd_end r.2 unc'

/-- `Reader::load_index`: replay one segment into the index from offset
0, returning the updated index and the stale bytes it accounted. -/
def loadIndex (file_id : Nat) (seg : Seg) (ix : Index K) :
    Except (Error K) (Index K × Nat) :=
  loadIndexAux c file_id seg (seg.length + 1) 0 ix 0

/-- The loop of `Store::load_inactive_files`
(`src/engines/store.rs:83-94`): for each enumerated id ascending, open a
reader (`Err(Io)` if the file vanished), replay it, cache the reader,
and accumulate the stale-byte counter. -/
def loadFilesAux : List Nat → StoreSt K → Nat → Except (Error K) Nat × StoreSt K
  | [], st, unc => (.ok unc, st)
  | id :: rest, st, unc =>
    match fsLookup st.files id with
    | none => (.error .io, st)
    | some seg =>
      match loadIndex c id seg st.index with
      | .error e => (.error e, st)
      | .ok (ix', u) =>
        loadFilesAux rest
          { st with index := ix', readers := insertReader st.readers id }
          (unc + u)

/-- The active segment id `Store::new` picks: `last + 1` over the sorted
existing ids (their maximum), or `1` when the directory holds no
segments (`src/engines/store.rs:60-63`). -/
def newFileId (fs0 : Files) : Nat :=
  match (getInactiveFileIds fs0).getLast? with
  | some last => last + 1
  | none => 1

/-- The state assembled by `Store::new` before `load_inactive_files`
runs: the fresh active segment created in append mode, its writer and
reader on it, an empty index, watermark 0. -/
def initialStoreSt (fs0 : Files) : StoreSt K :=
  { files := fsCreateAppendMode fs0 (newFileId fs0),
    readers := [newFileId fs0],
    wfile_id := newFileId fs0,
    wtarget := newFileId fs0,
    wpos := 0,
    wuncompacted := 0,
    index := [],
    last_compaction_point := 0 }

/-- `Store::new` (`src/engines/store.rs:55-79`): enumerate the existing
segment ids, pick the active id, create the active segment with a
writer and reader on it, then `load_inactive_files` (which
re-enumerates the directory — now including the freshly created empty
active segment) and store the accumulated stale bytes into
`writer.uncompacted`. -/
def Store.new (fs0 : Files) : Except (Error K) (StoreSt K) :=
  match loadFilesAux c (getInactiveFileIds (initialStoreSt (K := K) fs0).files)
      (initialStoreSt fs0) 0 with
  | (.error e, _) => .error e
  | (.ok unc, st1) => .ok { st1 with wuncompacted := unc }

/-! ### A concrete executable codec

The source serializes with serde_json, an external crate; the spec
(sections 1 and 4.1) deliberately leaves the record format open and only
requires a self-delimiting encoding whose concatenations decode back to
the original record sequence.  `natCodec` is such an encoding for
`K = V = Nat`, used to run the engine on concrete inputs: a number `n`
is `n` zero bytes closed by a one byte; a `Set` is tagged `2`, a `Rm` is
tagged `3`. -/

/-- Self-delimiting unary encoding of a `Nat`. -/
def encNat (n : Nat) : List Byte :=
  List.replicate n 0 ++ [1]

/-- Decode `encNat`: count the leading zero bytes up to the closing one
byte; returns the value and the bytes consumed. -/
def decNatAux : List Byte → Nat → Option (Nat × Nat)
  | [], _ => none
  | 0 :: rest, acc => decNatAux rest (acc + 1)
  | 1 :: _, acc => some (acc, acc + 1)
  | (_ + 2) :: _, _ => none

/-- The concrete codec at `K = V = Nat`. -/
def natCodec : Codec Nat Nat where
  enc
    | .set k v => 2 :: (encNat k ++ encNat v)
    | .rm k => 3 :: encNat k
  dec
    | 2 :: rest =>
      (decNatAux rest 0).bind fun p =>
        (decNatAux (rest.drop p.2) 0).map fun q =>
          (.set p.1 q.1, 1 + p.2 + q.2)
    | 3 :: rest => (decNatAux rest 0).map fun p => (.rm p.1, 1 + p.2)
    | _ => none

/-! ### Request dispatcher (`src/server.rs`) and error display
(`src/error.rs`) -/

/-- `Request<K, V>` from `src/resource.rs`. -/
inductive Request (K V : Type) where
  | get (key : K)
  | set (key : K) (val : V)
  | rm (key : K)
deriving DecidableEq

/-- `Response<V>` from `src/resource.rs`. -/
inductive Response (V : Type) where
  | ok (val : Option V)
  | err (msg : String)
deriving DecidableEq

/-- The `Display` strings of `src/error.rs` (`err.to_string()` in
`handle_client`).  `DoesNotExist` displays as
`key: {key} does not exist`; the key itself was formatted with `{:?}` in
`Store::remove`, which for an integer key is its decimal form.  The
`Io`/`Serde` payload messages come from the underlying libraries and are
abstracted to fixed strings. -/
def errToString : Error Nat → String
  | .io => "io error"
  | .serde => "serde error"
  | .doesNotExist k => "key: " ++ toString k ++ " does not exist"
  | .missingReader id => "no reader for file_id: " ++ toString id

/-- One arm of the per-request `match` in `handle_client`
(`src/server.rs:58-88`): every request is answered by exactly one
response; engine `Ok` values map to `Response::Ok` (always `Ok(None)`
for `Set`/`Rm`), engine errors map to `Response::Err(err.to_string())`. -/
def dispatch (st : StoreSt Nat) (req : Request Nat Nat) :
    Response Nat × StoreSt Nat :=
  match req with
  | .get k =>
    match KvStore.get natCodec st k with
    | (.ok v, st') => (.ok v, st')
    | (.error e, st') => (.err (errToString e), st')
  | .set k v =>
    match KvStore.set natCodec st k v with
    | (.ok _, st') => (.ok none, st')
    | (.error e, st') => (.err (errToString e), st')
  | .rm k =>
    match KvStore.remove natCodec st k with
    | (.ok _, st') => (.ok none, st')
    | (.error e, st') => (.err (errToString e), st')

/-- The `for req in request_reader` loop of `handle_client`: requests
decoded from one connection are served in order, each producing one
response; a per-request engine error does not stop the loop. -/
def serveConn (st : StoreSt Nat) :
    List (Request Nat Nat) → List (Response Nat) × StoreSt Nat
  | [] => ([], st)
  | r :: rs =>
    let p := dispatch st r
    let q := serveConn p.2 rs
    (p.1 :: q.1, q.2)

/-! ### Worker pool (`src/threadpool.rs`) -/

/-- What `receiver.lock().unwrap().recv()` yields for a worker: a
pending job, the closed-channel error, or blocking (channel open and
empty). -/
inductive RecvOutcome (J : Type) where
  | gotJob (job : J) (pending : List J)
  | closedErr
  | blocks

/-- `mpsc::Receiver::recv` against a queue of pending jobs and the
closed flag (the sender is dropped by `ThreadPool::drop`). -/
def recvModel {J : Type} (pending : List J) (closed : Bool) : RecvOutcome J :=
  match pending with
  | j :: rest => .gotJob j rest
  | [] => if closed then .closedErr else .blocks

/-- The result of one pass through the worker's `loop` body
(`Worker::new`, `src/threadpool.rs:17-25`). -/
inductive LoopStep (J : Type) where
  | next (pending : List J)
  | blocked
  | exited
deriving DecidableEq

/-- One iteration of the worker loop: `Ok(job)` runs the job and loops;
`Err(_)` has an empty body — and no `break` — so it also loops.  No arm
exits the loop. -/
def workerIteration {J : Type} (pending : List J) (closed : Bool) : LoopStep J :=
  match recvModel pending closed with
  | .gotJob _ rest => .next rest
  | .closedErr => .next pending
  | .blocks => .blocked

/-- Whether the worker's loop terminates within `fuel` iterations. -/
def workerExitsWithin {J : Type} (fuel : Nat) (pending : List J) (closed : Bool) :
    Bool :=
  match fuel with
  | 0 => false
  | fuel + 1 =>
    match workerIteration pending closed with
    | .exited => true
    | .blocked => false
    | .next rest => workerExitsWithin fuel rest closed

/-! ### Specification-side views of compaction

`concatSlices` and `compactRemap` describe, against the pre-compaction
directory, what the compaction loop produces: segment `C` is the
concatenation of the byte range of every index entry (ascending key
order), and each entry is re-pointed at its position in `C`. -/

/-- The byte range an index entry designates in the directory. -/
def sliceOf (fs : Files) (off : EntryOffset) : List Byte :=
  match fsLookup fs off.file_id with
  | some seg => (seg.drop off.start).take (off.stop - off.start)
  | none => []

/-- The concatenation of the byte ranges of all index entries. -/
def concatSlices (fs : Files) : Index K → List Byte
  | [] => []
  | (_, off) :: rest => sliceOf fs off ++ concatSlices fs rest

/-- The index produced by compaction: every entry re-pointed at its
consecutive range inside segment `C`, starting at `pos`. -/
def compactRemap (fs : Files) (C : Nat) : Index K → Nat → Index K
  | [], _ => []
  | (k, off) :: rest, pos =>
    (k, ⟨C, pos, pos + (sliceOf fs off).length⟩) ::
      compactRemap fs C rest (pos + (sliceOf fs off).length)

/-! ### Concrete evaluation states

A short history of the engine at `K = V = Nat`, used to evaluate the
operations on explicit inputs.  `nearThreshold` shortcuts the roughly
one MiB of displaced overwrites that drive `Writer.uncompacted` past the
threshold by setting the counter field directly; the counter's value is
the only thing the compaction trigger inspects. -/

/-- The state `Store::new` produces on an empty directory: one empty
active segment `1.log`, its reader cached, an empty index. -/
def openedEmpty : StoreSt Nat :=
  { files := [(1, [])], readers := [1], wfile_id := 1, wtarget := 1,
    wpos := 0, wuncompacted := 0, index := [], last_compaction_point := 0 }

/-- `openedEmpty` after `set 5 7`. -/
def afterSet57 : StoreSt Nat := (KvStore.set natCodec openedEmpty 5 7).2

/-- `afterSet57` with the uncompacted counter one past the threshold, as
reached after ~1 MiB of displaced overwrites. -/
def nearThreshold : StoreSt Nat := { afterSet57 with wuncompacted := 1048577 }

/-- `nearThreshold` after `set 6 8`, which crosses the threshold and runs
compaction inline: live records for keys 5 and 6 are in segment 2, the
empty segment 3 is the append target, segment 1 is deleted — but
`Writer.file_id` still reads 1. -/
def afterCompactingSet : StoreSt Nat := (KvStore.set natCodec nearThreshold 6 8).2

/-- `afterCompactingSet` after `set 9 4`: the record's bytes go to
segment 3 while the index entry for key 9 names the deleted segment 1. -/
def afterPostCompactionSet : StoreSt Nat := (KvStore.set natCodec afterCompactingSet 9 4).2

/-- The engine recovered by `Store::new` from the directory left by
`afterPostCompactionSet`. -/
def reopenedAfterCompaction : StoreSt Nat :=
  (Store.new natCodec afterPostCompactionSet.files).toOption.getD openedEmpty

/-- `afterSet57` after `remove 5`. -/
def afterRemove5 : StoreSt Nat := (Store.remove natCodec afterSet57 5).2

/-- A directory with two segments, listed out of order. -/
def c7Dir : Files := [(3, []), (1, [])]

/-- The engine opened on `c7Dir`; its active id must be `3 + 1 = 4`. -/
def c7Opened : StoreSt Nat := (Store.new natCodec c7Dir).toOption.getD openedEmpty

/-! ### Basic lemmas about the directory model -/

theorem fsLookup_append_one (fs : Files) (id : Nat) (s : Seg)
    (h : fsLookup fs id = none) : fsLookup (fs ++ [(id, s)]) id = some s := by
  induction fs with
  | nil => simp [fsLookup]
  | cons p rest ih =>
    by_cases hp : p.1 = id
    · simp [fsLookup, hp] at h
    · simp only [fsLookup, if_neg hp] at h
      simpa [fsLookup, hp] using ih h

theorem fsLookup_append_one_ne (fs : Files) (id id' : Nat) (s : Seg)
    (h : id' ≠ id) : fsLookup (fs ++ [(id, s)]) id' = fsLookup fs id' := by
  induction fs with
  | nil =>
    show (if id = id' then some s else none) = none
    rw [if_neg (fun hh => h hh.symm)]
  | cons p rest ih =>
    simp only [List.cons_append, fsLookup, List.append_eq]
    by_cases hp : p.1 = id'
    · rw [if_pos hp, if_pos hp]
    · rw [if_neg hp, if_neg hp, ih]

theorem fsCreateAppendMode_of_absent (fs : Files) (id : Nat)
    (h : fsLookup fs id = none) :
    fsCreateAppendMode fs id = fs ++ [(id, [])] := by
  simp [fsCreateAppendMode, h]

theorem fsAppend_lookup_self (fs : Files) (id : Nat) (s : Seg) (b : List Byte)
    (h : fsLookup fs id = some s) :
    fsLookup (fsAppend fs id b) id = some (s ++ b) := by
  induction fs with
  | nil => simp [fsLookup] at h
  | cons p rest ih =>
    by_cases hp : p.1 = id
    · simp only [fsLookup, if_pos hp, Option.some.injEq] at h
      subst h
      simp [fsAppend, fsLookup, hp]
    · simp only [fsLookup, if_neg hp] at h
      simpa [fsAppend, fsLookup, hp] using ih h

theorem fsAppend_lookup_ne (fs : Files) (id id' : Nat) (b : List Byte)
    (h : id' ≠ id) : fsLookup (fsAppend fs id b) id' = fsLookup fs id' := by
  induction fs with
  | nil => rfl
  | cons p rest ih =>
    simp only [fsAppend, List.map_cons] at ih ⊢
    by_cases hp : p.1 = id
    · have hne : ¬ p.1 = id' := fun hh => h (hh.symm.trans hp)
      rw [if_pos hp]
      show (if p.1 = id' then some (p.2 ++ b)
            else fsLookup (fsAppend rest id b) id') = fsLookup (p :: rest) id'
      rw [if_neg hne]
      show fsLookup (fsAppend rest id b) id' = fsLookup (p :: rest) id'
      rw [show fsLookup (p :: rest) id' = fsLookup rest id' by
        simp only [fsLookup]; rw [if_neg hne]]
      exact ih
    · rw [if_neg hp]
      simp only [fsLookup]
      by_cases hq : p.1 = id'
      · rw [if_pos hq, if_pos hq]
      · rw [if_neg hq, if_neg hq]
        exact ih

theorem fsRemoveFile_eq_some (fs : Files) (id : Nat)
    (h : (fsLookup fs id).isSome) :
    fsRemoveFile fs id = some (fsErase fs id) := by
  simp [fsRemoveFile, h]

theorem fsLookup_fsErase_ne (fs : Files) (id id' : Nat) (h : id' ≠ id) :
    fsLookup (fsErase fs id) id' = fsLookup fs id' := by
  induction fs with
  | nil => rfl
  | cons p rest ih =>
    simp only [fsErase]
    by_cases hp : p.1 = id
    · have hne : ¬ p.1 = id' := fun hh => h (hh.symm.trans hp)
      rw [if_pos hp]
      rw [show fsLookup (p :: rest) id' = fsLookup rest id' by
        simp only [fsLookup]; rw [if_neg hne]]
      exact ih
    · rw [if_neg hp]
      simp only [fsLookup]
      by_cases hq : p.1 = id'
      · rw [if_pos hq, if_pos hq]
      · rw [if_neg hq, if_neg hq]
        exact ih

theorem mem_fsErase_of_ne (fs : Files) (id : Nat) (q : Nat × Seg)
    (hq : q ∈ fs) (hne : q.1 ≠ id) : q ∈ fsErase fs id := by
  induction fs with
  | nil => cases hq
  | cons p rest ih =>
    rcases List.mem_cons.mp hq with hh | hh
    · subst hh
      rw [show fsErase (q :: rest) id = q :: fsErase rest id by
        simp only [fsErase]; rw [if_neg hne]]
      exact List.mem_cons_self _ _
    · by_cases hp : p.1 = id
      · rw [show fsErase (p :: rest) id = fsErase rest id by
          simp only [fsErase]; rw [if_pos hp]]
        exact ih hh
      · rw [show fsErase (p :: rest) id = p :: fsErase rest id by
          simp only [fsErase]; rw [if_neg hp]]
        exact List.mem_cons_of_mem _ (ih hh)

theorem mem_fsErase (fs : Files) (id : Nat) (q : Nat × Seg)
    (h : q ∈ fsErase fs id) : q ∈ fs ∧ q.1 ≠ id := by
  induction fs with
  | nil => simp [fsErase] at h
  | cons p rest ih =>
    by_cases hp : p.1 = id
    · rw [show fsErase (p :: rest) id = fsErase rest id by
        simp only [fsErase]; rw [if_pos hp]] at h
      exact ⟨List.mem_cons_of_mem _ (ih h).1, (ih h).2⟩
    · rw [show fsErase (p :: rest) id = p :: fsErase rest id by
        simp only [fsErase]; rw [if_neg hp]] at h
      rcases List.mem_cons.mp h with hq | hq
      · subst hq
        exact ⟨List.mem_cons_self _ _, hp⟩
      · exact ⟨List.mem_cons_of_mem _ (ih hq).1, (ih hq).2⟩

theorem fsLookup_eq_some_mem (fs : Files) (id : Nat) (s : Seg)
    (h : fsLookup fs id = some s) : (id, s) ∈ fs := by
  induction fs with
  | nil => cases h
  | cons p rest ih =>
    by_cases hp : p.1 = id
    · rw [show fsLookup (p :: rest) id = some p.2 by
        simp only [fsLookup]; rw [if_pos hp]] at h
      injection h with h2
      subst h2
      have hpq : (id, p.2) = p := by
        rw [← hp]
      rw [hpq]
      exact List.mem_cons_self _ _
    · rw [show fsLookup (p :: rest) id = fsLookup rest id by
        simp only [fsLookup]; rw [if_neg hp]] at h
      exact List.mem_cons_of_mem _ (ih h)

theorem fsLookup_eq_none_of_not_mem_fst (fs : Files) (id : Nat)
    (h : id ∉ fs.map Prod.fst) : fsLookup fs id = none := by
  induction fs with
  | nil => rfl
  | cons p rest ih =>
    have hp : ¬ p.1 = id := fun hh => h (by simp [hh])
    rw [show fsLookup (p :: rest) id = fsLookup rest id by
      simp only [fsLookup]; rw [if_neg hp]]
    exact ih (fun hm => h (by simp only [List.map_cons, List.mem_cons]; exact Or.inr hm))

theorem fsAppend_map_fst (fs : Files) (id : Nat) (b : List Byte) :
    (fsAppend fs id b).map Prod.fst = fs.map Prod.fst := by
  induction fs with
  | nil => rfl
  | cons p rest ih =>
    by_cases hp : p.1 = id
    · simp only [fsAppend, List.map_cons, if_pos hp] at ih ⊢
      rw [ih]
    · simp only [fsAppend, List.map_cons, if_neg hp] at ih ⊢
      rw [ih]

theorem insertReader_of_not_mem (rs : List Nat) (id : Nat) (h : id ∉ rs) :
    insertReader rs id = rs ++ [id] := by
  rw [insertReader, if_neg h]

/-! ### Basic lemmas about the index model -/

theorem idxRemove_fst (ix : Index K) (k : K) :
    (idxRemove ix k).1 = idxLookup ix k := by
  induction ix with
  | nil => simp [idxRemove, idxLookup]
  | cons p rest ih =>
    by_cases hp : k = p.1
    · simp [idxRemove, idxLookup, hp]
    · simp [idxRemove, idxLookup, hp, ih]

theorem idxLookup_eq_none_of_not_mem (ix : Index K) (k : K)
    (h : k ∉ ix.map Prod.fst) : idxLookup ix k = none := by
  induction ix with
  | nil => rfl
  | cons p rest ih =>
    have hp : ¬ k = p.1 := fun hh => h (by simp [hh])
    simp only [idxLookup, if_neg hp]
    exact ih (fun hm => h (by simp only [List.map_cons, List.mem_cons]; exact Or.inr hm))

theorem idxRemove_not_mem_keys (ix : Index K) (k : K)
    (h : (ix.map Prod.fst).Nodup) : k ∉ (idxRemove ix k).2.map Prod.fst := by
  induction ix with
  | nil => simp [idxRemove]
  | cons p rest ih =>
    simp only [List.map_cons, List.nodup_cons] at h
    by_cases hp : k = p.1
    · rw [show (idxRemove (p :: rest) k).2 = rest by
        simp only [idxRemove]; rw [if_pos hp]]
      intro hm
      exact h.1 (hp ▸ hm)
    · rw [show (idxRemove (p :: rest) k).2 = p :: (idxRemove rest k).2 by
        simp only [idxRemove]; rw [if_neg hp]]
      intro hm
      rcases List.mem_cons.mp hm with hq | hq
      · exact hp hq
      · exact ih h.2 hq

theorem idxLookup_remove_self (ix : Index K) (k : K)
    (h : (ix.map Prod.fst).Nodup) : idxLookup (idxRemove ix k).2 k = none :=
  idxLookup_eq_none_of_not_mem _ _ (idxRemove_not_mem_keys ix k h)

/-! ### Frame lemmas for `close_stale_fds` and recovery -/

/-- `close_stale_fds` only touches the reader cache and the directory:
the index and every writer field are untouched, files are only ever
removed, and a removed file's id is among the processed stale ids. -/
theorem closeStaleAux_frame (ids : List Nat) (st : StoreSt K) :
    (closeStaleAux ids st).2.index = st.index ∧
    (closeStaleAux ids st).2.wfile_id = st.wfile_id ∧
    (closeStaleAux ids st).2.wtarget = st.wtarget ∧
    (closeStaleAux ids st).2.wpos = st.wpos ∧
    (closeStaleAux ids st).2.wuncompacted = st.wuncompacted ∧
    (closeStaleAux ids st).2.last_compaction_point = st.last_compaction_point ∧
    (∀ q ∈ (closeStaleAux ids st).2.files, q ∈ st.files) ∧
    (∀ q ∈ st.files, q ∉ (closeStaleAux ids st).2.files → q.1 ∈ ids) := by
  induction ids generalizing st with
  | nil =>
    exact ⟨rfl, rfl, rfl, rfl, rfl, rfl, fun q hq => hq, fun q hq hq2 => absurd hq hq2⟩
  | cons id rest ih =>
    simp only [closeStaleAux]
    split
    · exact ⟨rfl, rfl, rfl, rfl, rfl, rfl, fun q hq => hq, fun q hq hq2 => absurd hq hq2⟩
    · rename_i fs' hrm
      have hfs' : fs' = fsErase st.files id := by
        by_cases hl : (fsLookup st.files id).isSome
        · rw [fsRemoveFile_eq_some st.files id hl] at hrm
          exact (Option.some.injEq _ _ ▸ hrm).symm
        · rw [fsRemoveFile, if_neg hl] at hrm
          cases hrm
      obtain ⟨h1, h2, h3, h4, h5, h6, h7, h8⟩ :=
        ih { st with readers := st.readers.filter (fun r => r ≠ id), files := fs' }
      refine ⟨h1, h2, h3, h4, h5, h6, ?_, ?_⟩
      · intro q hq
        have hmem : q ∈ fs' := h7 q hq
        rw [hfs'] at hmem
        exact (mem_fsErase st.files id q hmem).1
      · intro q hq hq2
        by_cases hmem : q ∈ fs'
        · exact List.mem_cons_of_mem _ (h8 q hmem hq2)
        · have hqid : q.1 = id := by
            by_contra hne
            exact hmem (hfs' ▸ mem_fsErase_of_ne st.files id q hq hne)
          rw [hqid]
          exact List.mem_cons_self _ _

/-- The recovery loop `load_inactive_files` only touches the index and
the reader cache. -/
theorem loadFilesAux_frame (c : Codec K V) (ids : List Nat) (st : StoreSt K) (unc : Nat) :
    (loadFilesAux c ids st unc).2.files = st.files ∧
    (loadFilesAux c ids st unc).2.wfile_id = st.wfile_id ∧
    (loadFilesAux c ids st unc).2.wtarget = st.wtarget ∧
    (loadFilesAux c ids st unc).2.wpos = st.wpos ∧
    (loadFilesAux c ids st unc).2.wuncompacted = st.wuncompacted ∧
    (loadFilesAux c ids st unc).2.last_compaction_point = st.last_compaction_point := by
  induction ids generalizing st unc with
  | nil => exact ⟨rfl, rfl, rfl, rfl, rfl, rfl⟩
  | cons id rest ih =>
    simp only [loadFilesAux]
    split
    · exact ⟨rfl, rfl, rfl, rfl, rfl, rfl⟩
    · split
      · exact ⟨rfl, rfl, rfl, rfl, rfl, rfl⟩
      · exact ih _ _

/-! ### Sorted lists: the last element of the ascending sort is the
maximum -/

theorem mem_of_getLast?_eq (l : List Nat) (m : Nat) (h : l.getLast? = some m) :
    m ∈ l := by
  induction l with
  | nil => cases h
  | cons x rest ih =>
    cases rest with
    | nil =>
      simp only [List.getLast?_singleton, Option.some.injEq] at h
      simp [h]
    | cons y t =>
      rw [List.getLast?_cons_cons] at h
      exact List.mem_cons_of_mem _ (ih h)

theorem le_getLast?_of_sorted (l : List Nat) (hs : l.Sorted (· ≤ ·)) (a : Nat)
    (ha : a ∈ l) (m : Nat) (hm : l.getLast? = some m) : a ≤ m := by
  induction l with
  | nil => cases ha
  | cons x rest ih =>
    obtain ⟨hx, hrest⟩ := List.sorted_cons.mp hs
    cases rest with
    | nil =>
      simp only [List.getLast?_singleton, Option.some.injEq] at hm
      rcases List.mem_cons.mp ha with h | h
      · exact le_of_eq (h.trans hm)
      · cases h
    | cons y t =>
      rw [List.getLast?_cons_cons] at hm
      rcases List.mem_cons.mp ha with h | h
      · subst h
        exact hx m (mem_of_getLast?_eq _ _ hm)
      · exact ih hrest h hm

theorem idxInsert_replace (pre rest : Index K) (k : K) (v0 v : EntryOffset)
    (hpre : ∀ a ∈ pre, a.1 < k) :
    idxInsert (pre ++ (k, v0) :: rest) k v = pre ++ (k, v) :: rest := by
  induction pre with
  | nil => simp [idxInsert, lt_irrefl]
  | cons p pre2 ih =>
    have hlt : p.1 < k := hpre p (by simp)
    have h1 : ¬ k < p.1 := not_lt_of_gt hlt
    have h2 : ¬ k = p.1 := hlt.ne'
    simp only [List.cons_append, idxInsert, if_neg h1, if_neg h2, List.append_eq]
    rw [ih (fun a ha => hpre a (by simp [ha]))]

/-- When every stale id is distinct and its file exists,
`close_stale_fds` succeeds, deletes exactly the files of the processed
ids, and leaves every other file's content untouched. -/
theorem closeStaleAux_ok_spec :
    ∀ (ids : List Nat) (st : StoreSt K), ids.Nodup →
    (∀ id ∈ ids, (fsLookup st.files id).isSome) →
    (closeStaleAux ids st).1 = .ok () ∧
    (∀ id2, id2 ∉ ids →
      fsLookup (closeStaleAux ids st).2.files id2 = fsLookup st.files id2) ∧
    (∀ q ∈ (closeStaleAux ids st).2.files, q ∈ st.files ∧ q.1 ∉ ids) := by
  intro ids
  induction ids with
  | nil =>
    intro st _ _
    exact ⟨rfl, fun id2 _ => rfl, fun q hq => ⟨hq, List.not_mem_nil _⟩⟩
  | cons id rest ih =>
    intro st hnodup hex
    have hhead : (fsLookup st.files id).isSome := hex id (List.mem_cons_self _ _)
    simp only [closeStaleAux, fsRemoveFile_eq_some st.files id hhead]
    obtain ⟨hnd1, hnd2⟩ := List.nodup_cons.mp hnodup
    obtain ⟨g1, g2, g3⟩ := ih
      { st with readers := st.readers.filter (fun r => r ≠ id),
                files := fsErase st.files id }
      hnd2
      (by
        intro id2 hid2
        have hne : id2 ≠ id := fun hh => hnd1 (hh ▸ hid2)
        show (fsLookup (fsErase st.files id) id2).isSome
        rw [fsLookup_fsErase_ne st.files id id2 hne]
        exact hex id2 (List.mem_cons_of_mem _ hid2))
    refine ⟨g1, ?_, ?_⟩
    · intro id2 hid2
      have hne : id2 ≠ id := fun hh => hid2 (hh ▸ List.mem_cons_self _ _)
      rw [g2 id2 (fun hm => hid2 (List.mem_cons_of_mem _ hm))]
      exact fsLookup_fsErase_ne st.files id id2 hne
    · intro q hq
      obtain ⟨hq1, hq2⟩ := g3 q hq
      obtain ⟨hq3, hq4⟩ := mem_fsErase st.files id q hq1
      refine ⟨hq3, ?_⟩
      intro hm
      rcases List.mem_cons.mp hm with hm | hm
      · exact hq4 hm
      · exact hq2 hm

/-- The compaction copy loop, specified against the pre-compaction
directory `orig`: iterating the remaining entries appends each entry's
byte range to segment `C` in order and re-points the entry at its
position there; no other file changes, no entry outside the iterated
suffix changes, and the loop succeeds. -/
theorem compactLoop_spec (C : Nat) (orig : Files) :
    ∀ (rest pre : Index K) (pos : Nat) (st : StoreSt K) (acc : List Byte),
    st.index = pre ++ rest →
    (∀ a ∈ pre, ∀ b ∈ rest, a.1 < b.1) →
    rest.Pairwise (fun a b => a.1 < b.1) →
    (∀ p ∈ rest, p.2.file_id ∈ st.readers ∧ p.2.file_id ≠ C ∧
      fsLookup st.files p.2.file_id = fsLookup orig p.2.file_id ∧
      (fsLookup orig p.2.file_id).isSome) →
    fsLookup st.files C = some acc →
    (compactLoop C rest pos st).1 = .ok () ∧
    (compactLoop C rest pos st).2.index = pre ++ compactRemap orig C rest pos ∧
    fsLookup (compactLoop C rest pos st).2.files C =
      some (acc ++ concatSlices orig rest) ∧
    (∀ id2, id2 ≠ C →
      fsLookup (compactLoop C rest pos st).2.files id2 = fsLookup st.files id2) ∧
    (compactLoop C rest pos st).2.files.map Prod.fst = st.files.map Prod.fst ∧
    (compactLoop C rest pos st).2.readers = st.readers := by
  intro rest
  induction rest with
  | nil =>
    intro pre pos st acc hix hsep hpair hrd haccC
    refine ⟨rfl, ?_, ?_, fun id2 _ => rfl, rfl, rfl⟩
    · show st.index = pre ++ compactRemap orig C [] pos
      rw [hix, compactRemap, List.append_nil]
    · show fsLookup st.files C = some (acc ++ concatSlices orig [])
      rw [haccC, concatSlices, List.append_nil]
  | cons p rest2 ih =>
    intro pre pos st acc hix hsep hpair hrd haccC
    obtain ⟨k, off⟩ := p
    obtain ⟨hmem, hneC, hlk, hsome⟩ := hrd (k, off) (List.mem_cons_self _ _)
    obtain ⟨seg, hseg⟩ := Option.isSome_iff_exists.mp hsome
    have hslice : (seg.drop off.start).take (off.stop - off.start) = sliceOf orig off := by
      rw [sliceOf, hseg]
    simp only [compactLoop]
    rw [if_pos hmem, hlk, hseg]
    have hpre2 : ∀ a ∈ pre, a.1 < k :=
      fun a ha => hsep a ha (k, off) (List.mem_cons_self _ _)
    have hins : idxInsert st.index k
        (⟨C, pos, pos + ((seg.drop off.start).take (off.stop - off.start)).length⟩)
        = pre ++ (k, (⟨C, pos,
            pos + ((seg.drop off.start).take (off.stop - off.start)).length⟩ :
              EntryOffset)) :: rest2 := by
      rw [hix]
      exact idxInsert_replace pre rest2 k off _ hpre2
    obtain ⟨g1, g2, g3, g4, g5, g6⟩ := ih
      (pre ++ [(k, ⟨C, pos,
          pos + ((seg.drop off.start).take (off.stop - off.start)).length⟩)])
      (pos + ((seg.drop off.start).take (off.stop - off.start)).length)
      { st with
          files := fsAppend st.files C ((seg.drop off.start).take (off.stop - off.start)),
          index := idxInsert st.index k
            ⟨C, pos, pos + ((seg.drop off.start).take (off.stop - off.start)).length⟩ }
      (acc ++ (seg.drop off.start).take (off.stop - off.start))
      (by
        show idxInsert st.index k _ = _
        rw [hins, List.append_assoc]
        rfl)
      (by
        intro a ha b hb
        rcases List.mem_append.mp ha with ha | ha
        · exact hsep a ha b (List.mem_cons_of_mem _ hb)
        · rcases List.mem_cons.mp ha with ha | ha
          · subst ha
            exact (List.pairwise_cons.mp hpair).1 b hb
          · cases ha)
      ((List.pairwise_cons.mp hpair).2)
      (by
        intro q hq
        obtain ⟨m1, m2, m3, m4⟩ := hrd q (List.mem_cons_of_mem _ hq)
        refine ⟨m1, m2, ?_, m4⟩
        show fsLookup (fsAppend st.files C _) q.2.file_id = _
        rw [fsAppend_lookup_ne st.files C q.2.file_id _ m2]
        exact m3)
      (by
        show fsLookup (fsAppend st.files C _) C = _
        exact fsAppend_lookup_self st.files C acc _ haccC)
    refine ⟨g1, ?_, ?_, ?_, ?_, g6⟩
    · rw [g2, compactRemap, ← hslice, List.append_assoc]
      rfl
    · rw [g3, concatSlices, ← hslice, List.append_assoc]
    · intro id2 hid2
      rw [g4 id2 hid2]
      show fsLookup (fsAppend st.files C _) id2 = _
      rw [fsAppend_lookup_ne st.files C id2 _ hid2]
    · rw [g5]
      exact fsAppend_map_fst st.files C _

/-! ### Shape lemmas for compaction -/

/-- The compaction copy loop only changes the directory and the index:
readers, all writer fields and the watermark are untouched. -/
theorem compactLoop_frame (C : Nat) (entries : List (K × EntryOffset))
    (pos : Nat) (st : StoreSt K) :
    (compactLoop C entries pos st).2.readers = st.readers ∧
    (compactLoop C entries pos st).2.wfile_id = st.wfile_id ∧
    (compactLoop C entries pos st).2.wtarget = st.wtarget ∧
    (compactLoop C entries pos st).2.wpos = st.wpos ∧
    (compactLoop C entries pos st).2.wuncompacted = st.wuncompacted ∧
    (compactLoop C entries pos st).2.last_compaction_point = st.last_compaction_point := by
  induction entries generalizing pos st with
  | nil => exact ⟨rfl, rfl, rfl, rfl, rfl, rfl⟩
  | cons p rest ih =>
    obtain ⟨k, off⟩ := p
    simp only [compactLoop]
    split
    · split
      · exact ih _ _
      · exact ⟨rfl, rfl, rfl, rfl, rfl, rfl⟩
    · exact ⟨rfl, rfl, rfl, rfl, rfl, rfl⟩

/-- When `Writer::compact` succeeds it returns `file_id + 1`, binds the
writer to segment `file_id + 2` with position 0, resets the uncompacted
counter, and leaves `Writer.file_id` and the watermark untouched. -/
theorem writerCompact_ok_shape (st : StoreSt K) (fid nid : Nat) (st2 : StoreSt K)
    (h : Writer.compact st fid = (.ok nid, st2)) :
    nid = fid + 1 ∧ st2.wuncompacted = 0 ∧ st2.wtarget = fid + 2 ∧
    st2.wpos = 0 ∧ st2.wfile_id = st.wfile_id ∧
    st2.last_compaction_point = st.last_compaction_point := by
  simp only [Writer.compact] at h
  split at h
  · cases h
  · rename_i u hloop
    injection h with h1 h2
    injection h1 with h1
    subst h1
    subst h2
    obtain ⟨g1, g2, g3, g4, g5, g6⟩ := compactLoop_frame (fid + 1) st.index 0
      ({ files := fsCreateAppendMode st.files (fid + 1),
         readers := insertReader st.readers (fid + 1),
         wfile_id := st.wfile_id, wtarget := st.wtarget, wpos := st.wpos,
         wuncompacted := st.wuncompacted, index := st.index,
         last_compaction_point := st.last_compaction_point } : StoreSt K)
    rw [hloop] at g2 g6
    refine ⟨rfl, rfl, ?_, rfl, g2, g6⟩
    show fid + 1 + 1 = fid + 2
    omega

/-- When the whole compaction cycle (compact, advance the watermark,
drop stale readers) succeeds, the resulting state has counter 0,
watermark `fid + 1`, the writer bound to `fid + 2` at position 0, and
`Writer.file_id` unchanged. -/
theorem compactionCycle_ok_shape (st : StoreSt K) (fid : Nat) (st2 : StoreSt K)
    (h : compactionCycle st fid = (.ok (), st2)) :
    st2.wuncompacted = 0 ∧ st2.wtarget = fid + 2 ∧ st2.wpos = 0 ∧
    st2.last_compaction_point = fid + 1 ∧ st2.wfile_id = st.wfile_id := by
  unfold compactionCycle at h
  split at h
  · cases h
  · rename_i nid st1 hcp
    obtain ⟨c1, c2, c3, c4, c5, c6⟩ := writerCompact_ok_shape st fid nid st1 hcp
    subst c1
    set stW : StoreSt K := { st1 with last_compaction_point := fid + 1 } with hstW
    obtain ⟨f1, f2, f3, f4, f5, f6, f7, f8⟩ :=
      closeStaleAux_frame (stW.readers.filter (fun r => r < stW.last_compaction_point)) stW
    have h2 : closeStaleAux
        (stW.readers.filter (fun r => r < stW.last_compaction_point)) stW
        = (.ok (), st2) := h
    rw [h2] at f2 f3 f4 f5 f6
    exact ⟨f5.trans (show stW.wuncompacted = 0 from c2),
      f3.trans (show stW.wtarget = fid + 2 from c3),
      f4.trans (show stW.wpos = 0 from c4),
      f6.trans (show stW.last_compaction_point = fid + 1 from rfl),
      f2.trans (show stW.wfile_id = st.wfile_id from c5)⟩

/-! ### Claim theorems -/

/-- C1: the claim fails on the code.  `Writer::compact` rebinds the
active writer to the fresh segment but never updates `Writer.file_id`,
so a `set` issued after a compaction indexes its key under the old —
and by then deleted — segment id while its bytes go to the new active
segment.  Concretely: after a compaction has run, `set 9 4` returns
`Ok(())`, yet the immediately following `get 9` (with no intervening
write to key 9) returns `Err(Io)` — the reader open fails on the deleted
segment `1.log` — instead of `Some 4`. -/
theorem c1_read_your_writes_fails_after_compaction :
    (KvStore.set natCodec afterCompactingSet 9 4).1 = .ok () ∧
    idxLookup afterPostCompactionSet.index 9 = some ⟨1, 0, 16⟩ ∧
    fsLookup afterPostCompactionSet.files 1 = none ∧
    (KvStore.get natCodec afterPostCompactionSet 9).1 = .error .io :=
  ⟨rfl, rfl, rfl, rfl⟩

/-- C4: persistence fails on the code for the same root cause as C1.
Before the close, `get 9` on `afterPostCompactionSet` fails with `Io`
(its index entry names the deleted segment 1); after closing and
reopening the same directory, replay rebuilds a correct index and
`get 9` returns `Some 4`.  The two states disagree on `get 9`, so the
reopened state is not equivalent to the pre-shutdown one. -/
theorem c4_persistence_fails_after_compaction :
    (KvStore.get natCodec afterPostCompactionSet 9).1 = .error .io ∧
    Store.new natCodec afterPostCompactionSet.files = .ok reopenedAfterCompaction ∧
    (KvStore.get natCodec reopenedAfterCompaction 9).1 = .ok (some 4) ∧
    (KvStore.get natCodec reopenedAfterCompaction 5).1 = .ok (some 7) :=
  ⟨rfl, rfl, rfl, rfl⟩

/-- C5: the claim fails on the code.  `Store::remove` hands the encoded
`Rm` record to `Store::write`, which re-inserts the removed key into the
index pointing at the `Rm` record itself.  `get` still returns `None`
(the decoded record is not a `Set`), but the key is never absent from
the index, so a second `remove` of the same key succeeds instead of
failing with `KeyNotFound` (spec scenario:
`remove("a"); remove("a") -> KeyNotFound`). -/
theorem c5_second_remove_succeeds :
    (Store.remove natCodec afterSet57 5).1 = .ok () ∧
    (KvStore.get natCodec afterRemove5 5).1 = .ok none ∧
    idxLookup afterRemove5.index 5 = some ⟨1, 15, 22⟩ ∧
    (Store.remove natCodec afterRemove5 5).1 = .ok () :=
  ⟨rfl, rfl, rfl, rfl⟩

/-- C6 counterexample: on `afterSet57` (one `Set 5 7` record of 15
bytes, counter 0), `remove 5` leaves the counter at 15 — exactly the
displaced record's length.  The claim demands 15 + 7 = 22, the
displaced length plus the appended `Rm` record's own 7-byte length,
which the `Store::remove` path never adds (only replay does, in
`Reader::load_index`). -/
theorem c6_remove_counter_counterexample :
    afterSet57.wuncompacted = 0 ∧
    displacedLen afterSet57 5 = 15 ∧
    (natCodec.enc (Entry.rm 5)).length = 7 ∧
    (Store.remove natCodec afterSet57 5).2.wuncompacted = 15 ∧
    (15 : Nat) ≠ 0 + 15 + 7 :=
  ⟨rfl, rfl, rfl, rfl, by decide⟩

/-- C9: the claim fails on the code.  The worker loop in `Worker::new`
matches `recv()` with an `Ok` arm that runs the job and an `Err` arm
with an empty body — and no `break` — so once `ThreadPool::drop` closes
the channel a worker spins on `Err` forever: no iteration bound makes
the loop exit.  Hence `drop`'s `join` on each worker never returns and
pool destruction does not terminate. -/
theorem c9_worker_never_exits_after_close (J : Type) :
    ∀ (fuel : Nat) (pending : List J), workerExitsWithin fuel pending true = false := by
  intro fuel
  induction fuel with
  | zero => intro _; rfl
  | succ n ih =>
    intro pending
    cases pending with
    | nil => exact ih []
    | cons j rest => exact ih rest

/-- `Store::read` only touches the reader cache and the directory: the
index, the writer fields and the watermark are untouched; files are
only removed, and only files whose id sits below the watermark with a
cached reader. -/
theorem storeRead_frame {K : Type} {V : Type} [LinearOrder K] (c : Codec K V)
    (st : StoreSt K) (fid s e : Nat) :
    (Store.read c st fid s e).2.index = st.index ∧
    (Store.read c st fid s e).2.wfile_id = st.wfile_id ∧
    (Store.read c st fid s e).2.wtarget = st.wtarget ∧
    (Store.read c st fid s e).2.wpos = st.wpos ∧
    (Store.read c st fid s e).2.wuncompacted = st.wuncompacted ∧
    (Store.read c st fid s e).2.last_compaction_point = st.last_compaction_point ∧
    (∀ q ∈ (Store.read c st fid s e).2.files, q ∈ st.files) ∧
    (∀ q ∈ st.files, q ∉ (Store.read c st fid s e).2.files →
      q.1 < st.last_compaction_point ∧ q.1 ∈ st.readers) := by
  unfold Store.read
  have hids : ∀ a ∈ st.readers.filter (fun r => r < st.last_compaction_point),
      a < st.last_compaction_point ∧ a ∈ st.readers := by
    intro a ha
    obtain ⟨hmem, hdec⟩ := List.mem_filter.mp ha
    exact ⟨of_decide_eq_true hdec, hmem⟩
  rcases hcs : closeStaleFds st with ⟨res, st1⟩
  obtain ⟨h1, h2, h3, h4, h5, h6, h7, h8⟩ :=
    closeStaleAux_frame (st.readers.filter (fun r => r < st.last_compaction_point)) st
  rw [show closeStaleAux
      (st.readers.filter (fun r => r < st.last_compaction_point)) st = (res, st1)
    from hcs] at h1 h2 h3 h4 h5 h6 h7 h8
  have f8 : ∀ q ∈ st.files, q ∉ st1.files →
      q.1 < st.last_compaction_point ∧ q.1 ∈ st.readers :=
    fun q hq hq2 => hids q.1 (h8 q hq hq2)
  cases res with
  | error e2 => exact ⟨h1, h2, h3, h4, h5, h6, h7, f8⟩
  | ok u =>
    dsimp only
    by_cases hr : fid ∈ st1.readers
    · rw [if_pos hr]
      cases hfl : fsLookup st1.files fid with
      | some seg => exact ⟨h1, h2, h3, h4, h5, h6, h7, f8⟩
      | none => exact ⟨h1, h2, h3, h4, h5, h6, h7, f8⟩
    · rw [if_neg hr]
      cases hfl : fsLookup st1.files fid with
      | none => exact ⟨h1, h2, h3, h4, h5, h6, h7, f8⟩
      | some seg => exact ⟨h1, h2, h3, h4, h5, h6, h7, f8⟩

/-- C10: confirmed.  For every engine state and key, `get` leaves the
index, all writer fields (`file_id`, position, uncompacted counter, the
bound append target) and the watermark unchanged; its only state
effects are on the reader cache and the removal of segment files whose
cached readers sit below the `last_compaction_point` watermark. -/
theorem c10_get_frame {K : Type} {V : Type} [LinearOrder K] (c : Codec K V)
    (st : StoreSt K) (k : K) :
    (KvStore.get c st k).2.index = st.index ∧
    (KvStore.get c st k).2.wfile_id = st.wfile_id ∧
    (KvStore.get c st k).2.wtarget = st.wtarget ∧
    (KvStore.get c st k).2.wpos = st.wpos ∧
    (KvStore.get c st k).2.wuncompacted = st.wuncompacted ∧
    (KvStore.get c st k).2.last_compaction_point = st.last_compaction_point ∧
    (∀ q ∈ (KvStore.get c st k).2.files, q ∈ st.files) ∧
    (∀ q ∈ st.files, q ∉ (KvStore.get c st k).2.files →
      q.1 < st.last_compaction_point ∧ q.1 ∈ st.readers) := by
  unfold KvStore.get
  cases hl : idxLookup st.index k with
  | none =>
    exact ⟨rfl, rfl, rfl, rfl, rfl, rfl, fun q hq => hq, fun q hq hq2 => absurd hq hq2⟩
  | some off => exact storeRead_frame c st off.file_id off.start off.stop

/-- C2: confirmed.  When the bookkeeping of a `set` (the displaced
record's length added to the counter) drives `uncompacted` past
`COMPACTION_THRESHOLD`, the very same `set` call runs the compaction
cycle inline before returning: its result is literally that of
`compactionCycle` on the updated state, and when it returns `Ok` the
state shows compaction completed — counter reset to 0, watermark at
`wfile_id + 1`, the writer bound to segment `wfile_id + 2` at
position 0. -/
theorem c2_set_triggers_compaction_inline {K : Type} {V : Type} [LinearOrder K]
    (c : Codec K V) (st : StoreSt K) (k : K) (v : V)
    (hex : st.wuncompacted + displacedLen st k > COMPACTION_THRESHOLD)
    (hok : (KvStore.set c st k v).1 = .ok ()) :
    KvStore.set c st k v =
      compactionCycle (writeUpdated st k (c.enc (.set k v))) st.wfile_id ∧
    (KvStore.set c st k v).2.wuncompacted = 0 ∧
    (KvStore.set c st k v).2.last_compaction_point = st.wfile_id + 1 ∧
    (KvStore.set c st k v).2.wtarget = st.wfile_id + 2 ∧
    (KvStore.set c st k v).2.wpos = 0 := by
  have hcond : (writeUpdated st k (c.enc (.set k v))).wuncompacted >
      COMPACTION_THRESHOLD := hex
  have heq : KvStore.set c st k v =
      compactionCycle (writeUpdated st k (c.enc (.set k v))) st.wfile_id := by
    unfold KvStore.set Store.write
    rw [if_pos hcond]
  rw [heq] at hok ⊢
  rcases hcc : compactionCycle (writeUpdated st k (c.enc (.set k v))) st.wfile_id
    with ⟨res, st2⟩
  rw [hcc] at hok
  cases res with
  | error e => cases hok
  | ok uu =>
    obtain ⟨s1, s2, s3, s4, s5⟩ :=
      compactionCycle_ok_shape (writeUpdated st k (c.enc (.set k v))) st.wfile_id st2 hcc
    exact ⟨rfl, s1, s4, s2, s3⟩

/-- Witness for C2 at a concrete state: on `nearThreshold` (counter one
past the threshold), `set 6 8` succeeds and returns with the counter at
0, the watermark at 2 and the writer on segment 3. -/
theorem c2_set_triggers_compaction_inline_witness :
    (nearThreshold.wuncompacted + displacedLen nearThreshold 6 > COMPACTION_THRESHOLD) ∧
    (KvStore.set natCodec nearThreshold 6 8).1 = .ok () ∧
    (KvStore.set natCodec nearThreshold 6 8).2.wuncompacted = 0 ∧
    (KvStore.set natCodec nearThreshold 6 8).2.last_compaction_point =
      nearThreshold.wfile_id + 1 ∧
    (KvStore.set natCodec nearThreshold 6 8).2.wtarget = nearThreshold.wfile_id + 2 := by
  have hok : (KvStore.set natCodec nearThreshold 6 8).1 = .ok () := rfl
  have h := c2_set_triggers_compaction_inline natCodec nearThreshold 6 8 (by decide) hok
  exact ⟨by decide, hok, h.2.1, h.2.2.1, h.2.2.2.1⟩

/-- C6 amended: a successful `remove(k)` that does not cross the
compaction threshold increases the uncompacted counter by exactly the
displaced record's byte length; the `Rm` record's own length is not
added (only replay on reopen counts it). -/
theorem c6_remove_counter_amended {K : Type} {V : Type} [LinearOrder K]
    (c : Codec K V) (st : StoreSt K) (k : K) (old : EntryOffset)
    (hold : idxLookup st.index k = some old)
    (hnodup : (st.index.map Prod.fst).Nodup)
    (hle : st.wuncompacted + (old.stop - old.start) ≤ COMPACTION_THRESHOLD) :
    (Store.remove c st k).1 = .ok () ∧
    (Store.remove c st k).2.wuncompacted =
      st.wuncompacted + (old.stop - old.start) := by
  have hc : idxContains st.index k = true := by
    rw [idxContains, hold]
    rfl
  unfold Store.remove
  rw [if_pos hc]
  rw [show (idxRemove st.index k).1 = some old from (idxRemove_fst st.index k).trans hold]
  set st1 : StoreSt K :=
    { st with index := (idxRemove st.index k).2,
              wuncompacted := st.wuncompacted + (old.stop - old.start) } with hst1
  have hd : displacedLen st1 k = 0 := by
    unfold displacedLen
    rw [show idxLookup st1.index k = none from idxLookup_remove_self st.index k hnodup]
  have hcond : ¬ ((writeUpdated st1 k (c.enc (.rm k))).wuncompacted >
      COMPACTION_THRESHOLD) := by
    show ¬ (st1.wuncompacted + displacedLen st1 k > COMPACTION_THRESHOLD)
    rw [hd]
    have hunc : st1.wuncompacted = st.wuncompacted + (old.stop - old.start) := rfl
    omega
  show ((Store.write st1 k (c.enc (.rm k))).1 = .ok ()) ∧
    (Store.write st1 k (c.enc (.rm k))).2.wuncompacted =
      st.wuncompacted + (old.stop - old.start)
  unfold Store.write
  rw [if_neg hcond]
  refine ⟨rfl, ?_⟩
  show st1.wuncompacted + displacedLen st1 k = st.wuncompacted + (old.stop - old.start)
  rw [hd]
  rfl

/-- C3: confirmed.  From a healthy pre-compaction state (sorted index,
every indexed segment and every directory file cached, all cached ids at
most the active id `A` with their files present), the compaction cycle
run with active id `A` succeeds and: segment `C = A + 1` holds exactly
the concatenated byte ranges of the index entries (one record per
entry), the index is re-pointed at consecutive ranges of `C`, segment
`N = A + 2` is created empty and becomes the writer's append target at
position 0, every segment with id `< C` is deleted, the uncompacted
counter is reset to 0 and the watermark is `C`. -/
theorem c3_compaction_postcondition {K : Type} [LinearOrder K] (st : StoreSt K)
    (hsort : st.index.Pairwise (fun a b => a.1 < b.1))
    (hidx : ∀ p ∈ st.index, p.2.file_id ∈ st.readers)
    (hrd : ∀ id ∈ st.readers, id ≤ st.wfile_id ∧ (fsLookup st.files id).isSome)
    (hfile : ∀ q ∈ st.files, q.1 ∈ st.readers)
    (hnodupr : st.readers.Nodup) :
    (compactionCycle st st.wfile_id).1 = .ok () ∧
    fsLookup (compactionCycle st st.wfile_id).2.files (st.wfile_id + 1) =
      some (concatSlices st.files st.index) ∧
    (compactionCycle st st.wfile_id).2.index =
      compactRemap st.files (st.wfile_id + 1) st.index 0 ∧
    fsLookup (compactionCycle st st.wfile_id).2.files (st.wfile_id + 2) = some [] ∧
    (∀ q ∈ (compactionCycle st st.wfile_id).2.files, ¬ q.1 < st.wfile_id + 1) ∧
    (compactionCycle st st.wfile_id).2.wuncompacted = 0 ∧
    (compactionCycle st st.wfile_id).2.wtarget = st.wfile_id + 2 ∧
    (compactionCycle st st.wfile_id).2.wpos = 0 ∧
    (compactionCycle st st.wfile_id).2.last_compaction_point = st.wfile_id + 1 := by
  have hCnotr : st.wfile_id + 1 ∉ st.readers := by
    intro hmem
    have := (hrd _ hmem).1
    omega
  have hNnotr : st.wfile_id + 1 + 1 ∉ st.readers := by
    intro hmem
    have := (hrd _ hmem).1
    omega
  have hCfile : fsLookup st.files (st.wfile_id + 1) = none := by
    cases hc : fsLookup st.files (st.wfile_id + 1) with
    | none => rfl
    | some s =>
      exact absurd (hfile _ (fsLookup_eq_some_mem _ _ _ hc)) hCnotr
  have hfiles1 : fsCreateAppendMode st.files (st.wfile_id + 1)
      = st.files ++ [(st.wfile_id + 1, [])] :=
    fsCreateAppendMode_of_absent _ _ hCfile
  have hreaders1 : insertReader st.readers (st.wfile_id + 1)
      = st.readers ++ [st.wfile_id + 1] :=
    insertReader_of_not_mem _ _ hCnotr
  obtain ⟨g1, g2, g3, g4, g5, g6⟩ := compactLoop_spec (st.wfile_id + 1) st.files
    st.index [] 0
    ({ st with files := fsCreateAppendMode st.files (st.wfile_id + 1),
               readers := insertReader st.readers (st.wfile_id + 1) } : StoreSt K)
    []
    (List.nil_append _).symm
    (fun a ha => absurd ha (List.not_mem_nil a))
    hsort
    (by
      intro p hp
      have hm := hidx p hp
      have hle := (hrd _ hm).1
      have hne : p.2.file_id ≠ st.wfile_id + 1 := by omega
      refine ⟨?_, hne, ?_, (hrd _ hm).2⟩
      · show p.2.file_id ∈ insertReader st.readers (st.wfile_id + 1)
        rw [hreaders1]
        exact List.mem_append_left _ hm
      · show fsLookup (fsCreateAppendMode st.files (st.wfile_id + 1)) p.2.file_id = _
        rw [hfiles1]
        exact fsLookup_append_one_ne _ _ _ _ hne)
    (by
      show fsLookup (fsCreateAppendMode st.files (st.wfile_id + 1)) (st.wfile_id + 1)
        = some []
      rw [hfiles1]
      exact fsLookup_append_one _ _ _ hCfile)
  rcases hLp : compactLoop (st.wfile_id + 1) st.index 0
      ({ st with files := fsCreateAppendMode st.files (st.wfile_id + 1),
                 readers := insertReader st.readers (st.wfile_id + 1) } : StoreSt K)
    with ⟨lres, stL⟩
  rw [hLp] at g1 g2 g3 g4 g5 g6
  have g1' : lres = .ok () := g1
  subst g1'
  have g2' : stL.index = compactRemap st.files (st.wfile_id + 1) st.index 0 := by
    rw [show stL.index = (Except.ok (), stL).2.index from rfl, g2, List.nil_append]
  have g3' : fsLookup stL.files (st.wfile_id + 1)
      = some (concatSlices st.files st.index) := by
    rw [show fsLookup stL.files (st.wfile_id + 1)
      = fsLookup (Except.ok (), stL).2.files (st.wfile_id + 1) from rfl, g3,
      List.nil_append]
  have g5' : stL.files.map Prod.fst = st.files.map Prod.fst ++ [st.wfile_id + 1] := by
    rw [show stL.files.map Prod.fst = (Except.ok (), stL).2.files.map Prod.fst from rfl,
      g5]
    show (fsCreateAppendMode st.files (st.wfile_id + 1)).map Prod.fst = _
    rw [hfiles1, List.map_append]
    rfl
  have g6' : stL.readers = st.readers ++ [st.wfile_id + 1] := by
    rw [show stL.readers = (Except.ok (), stL).2.readers from rfl, g6]
    show insertReader st.readers (st.wfile_id + 1) = _
    rw [hreaders1]
  have g4' : ∀ id2, id2 ≠ st.wfile_id + 1 →
      fsLookup stL.files id2 = fsLookup st.files id2 := by
    intro id2 hid2
    rw [show fsLookup stL.files id2 = fsLookup (Except.ok (), stL).2.files id2 from rfl,
      g4 id2 hid2]
    show fsLookup (fsCreateAppendMode st.files (st.wfile_id + 1)) id2 = _
    rw [hfiles1]
    exact fsLookup_append_one_ne _ _ _ _ hid2
  have hNmem : st.wfile_id + 1 + 1 ∉ stL.files.map Prod.fst := by
    rw [g5']
    intro hm
    rcases List.mem_append.mp hm with hm | hm
    · obtain ⟨q, hq, hq2⟩ := List.mem_map.mp hm
      have := (hrd _ (hfile q hq)).1
      omega
    · rcases List.mem_cons.mp hm with hm | hm
      · omega
      · cases hm
  have hNfileL : fsLookup stL.files (st.wfile_id + 1 + 1) = none :=
    fsLookup_eq_none_of_not_mem_fst _ _ hNmem
  have hcreateN : fsCreateAppendMode stL.files (st.wfile_id + 1 + 1)
      = stL.files ++ [(st.wfile_id + 1 + 1, [])] :=
    fsCreateAppendMode_of_absent _ _ hNfileL
  have hNnotrL : st.wfile_id + 1 + 1 ∉ stL.readers := by
    rw [g6']
    intro hm
    rcases List.mem_append.mp hm with hm | hm
    · exact hNnotr hm
    · rcases List.mem_cons.mp hm with hm | hm
      · omega
      · cases hm
  have hreadersN : insertReader stL.readers (st.wfile_id + 1 + 1)
      = st.readers ++ [st.wfile_id + 1] ++ [st.wfile_id + 1 + 1] := by
    rw [insertReader_of_not_mem _ _ hNnotrL, g6']
  have hstale : (insertReader stL.readers (st.wfile_id + 1 + 1)).filter
      (fun r => r < st.wfile_id + 1) = st.readers := by
    rw [hreadersN, List.filter_append, List.filter_append]
    rw [List.filter_eq_self.mpr (by
      intro a ha
      exact decide_eq_true (Nat.lt_succ_of_le (hrd a ha).1))]
    rw [show List.filter (fun r => decide (r < st.wfile_id + 1)) [st.wfile_id + 1]
        = [] by simp]
    rw [show List.filter (fun r => decide (r < st.wfile_id + 1)) [st.wfile_id + 1 + 1]
        = [] by simp]
    simp
  simp only [compactionCycle, Writer.compact]
  rw [hLp]
  dsimp only
  simp only [closeStaleFds]
  dsimp only
  rw [hstale]
  obtain ⟨k1, k2, k3⟩ := closeStaleAux_ok_spec st.readers
    ({ files := fsCreateAppendMode stL.files (st.wfile_id + 1 + 1),
       readers := insertReader stL.readers (st.wfile_id + 1 + 1),
       wfile_id := stL.wfile_id, wtarget := st.wfile_id + 1 + 1,
       wpos := 0, wuncompacted := 0, index := stL.index,
       last_compaction_point := st.wfile_id + 1 } : StoreSt K)
    hnodupr
    (by
      intro id hid
      have hle := (hrd _ hid).1
      show (fsLookup (fsCreateAppendMode stL.files (st.wfile_id + 1 + 1)) id).isSome
      rw [hcreateN, fsLookup_append_one_ne _ _ id _ (by omega),
        g4' id (by omega)]
      exact (hrd _ hid).2)
  obtain ⟨f1, f2, f3, f4, f5, f6, f7, f8⟩ := closeStaleAux_frame st.readers
    ({ files := fsCreateAppendMode stL.files (st.wfile_id + 1 + 1),
       readers := insertReader stL.readers (st.wfile_id + 1 + 1),
       wfile_id := stL.wfile_id, wtarget := st.wfile_id + 1 + 1,
       wpos := 0, wuncompacted := 0, index := stL.index,
       last_compaction_point := st.wfile_id + 1 } : StoreSt K)
  refine ⟨k1, ?_, ?_, ?_, ?_, f5, f3, f4, f6⟩
  · rw [k2 _ hCnotr]
    show fsLookup (fsCreateAppendMode stL.files (st.wfile_id + 1 + 1))
      (st.wfile_id + 1) = _
    rw [hcreateN, fsLookup_append_one_ne _ _ _ _ (by omega)]
    exact g3'
  · rw [f1]
    exact g2'
  · rw [k2 _ hNnotr]
    show fsLookup (fsCreateAppendMode stL.files (st.wfile_id + 1 + 1))
      (st.wfile_id + 1 + 1) = some []
    rw [hcreateN]
    exact fsLookup_append_one _ _ _ hNfileL
  · intro q hq
    obtain ⟨hq1, hq2⟩ := k3 q hq
    have hq3 : q ∈ stL.files ++ [(st.wfile_id + 1 + 1, [])] := by
      rw [← hcreateN]
      exact hq1
    rcases List.mem_append.mp hq3 with hm | hm
    · have hfst : q.1 ∈ stL.files.map Prod.fst := List.mem_map_of_mem _ hm
      rw [g5'] at hfst
      rcases List.mem_append.mp hfst with hf | hf
      · obtain ⟨q2, hq2m, hq2e⟩ := List.mem_map.mp hf
        exact absurd (hq2e ▸ hfile q2 hq2m) hq2
      · rcases List.mem_cons.mp hf with hf | hf
        · omega
        · cases hf
    · rcases List.mem_cons.mp hm with hm | hm
      · rw [hm]
        omega
      · cases hm

/-- Witness for C3: a concrete pre-compaction state with two live keys
whose records sit in segment 1; the cycle produces segment 2 with both
records, empty active segment 3, deletes segment 1 and resets the
counter. -/
theorem c3_compaction_postcondition_witness :
    (afterSet57.index.Pairwise (fun a b => a.1 < b.1)) ∧
    ((compactionCycle afterSet57 afterSet57.wfile_id).1 = .ok () ∧
     fsLookup (compactionCycle afterSet57 afterSet57.wfile_id).2.files
       (afterSet57.wfile_id + 1) = some (concatSlices afterSet57.files afterSet57.index) ∧
     (compactionCycle afterSet57 afterSet57.wfile_id).2.index =
       compactRemap afterSet57.files (afterSet57.wfile_id + 1) afterSet57.index 0 ∧
     fsLookup (compactionCycle afterSet57 afterSet57.wfile_id).2.files
       (afterSet57.wfile_id + 2) = some [] ∧
     (∀ q ∈ (compactionCycle afterSet57 afterSet57.wfile_id).2.files,
       ¬ q.1 < afterSet57.wfile_id + 1) ∧
     (compactionCycle afterSet57 afterSet57.wfile_id).2.wuncompacted = 0 ∧
     (compactionCycle afterSet57 afterSet57.wfile_id).2.wtarget =
       afterSet57.wfile_id + 2 ∧
     (compactionCycle afterSet57 afterSet57.wfile_id).2.wpos = 0 ∧
     (compactionCycle afterSet57 afterSet57.wfile_id).2.last_compaction_point =
       afterSet57.wfile_id + 1) := by
  exact ⟨by decide, c3_compaction_postcondition afterSet57 (by decide) (by decide)
    (by decide) (by decide) (by decide)⟩

/-- C8 counterexample: a `KeyNotFound` surfacing from `remove` is
encoded by `handle_client` as `Err(err.to_string())`, and
`Error::DoesNotExist` displays as `key: {k} does not exist` — not the
literal `"Key not found"` the claim (and spec section 4.4) states. -/
theorem c8_remove_error_string_counterexample :
    (dispatch openedEmpty (Request.rm 5)).1 = Response.err "key: 5 does not exist" ∧
    (dispatch openedEmpty (Request.rm 5)).1 ≠ Response.err "Key not found" :=
  ⟨rfl, by decide⟩

/-- C8 amended: at the dispatcher boundary every request gets exactly
one response; `get` on an absent key yields `Ok(None)` (the engine never
raises `KeyNotFound` on `get`); a successful `Set` yields `Ok(None)`; a
`KeyNotFound` from `remove` yields `Err` carrying the error's display
message `key: {k} does not exist`; any other engine error yields `Err`
carrying the error's message; per-request engine errors do not
terminate the serving loop. -/
theorem c8_dispatch_mapping_amended (st st2 : StoreSt Nat) (k k2 v : Nat)
    (e : Error Nat)
    (hk : idxLookup st.index k = none)
    (hT : st.wuncompacted ≤ COMPACTION_THRESHOLD)
    (he : (KvStore.get natCodec st2 k2).1 = .error e) :
    dispatch st (.get k) = (.ok none, st) ∧
    (dispatch st (.set k v)).1 = .ok none ∧
    dispatch st (.rm k) =
      (.err ("key: " ++ toString k ++ " does not exist"), st) ∧
    (dispatch st2 (.get k2)).1 = .err (errToString e) ∧
    (∀ (st3 : StoreSt Nat) (rs : List (Request Nat Nat)),
      ((serveConn st3 rs).1).length = rs.length) := by
  have hd : displacedLen st k = 0 := by
    unfold displacedLen
    rw [hk]
  refine ⟨?_, ?_, ?_, ?_, ?_⟩
  · simp only [dispatch, KvStore.get, hk]
  · have hcond : ¬ ((writeUpdated st k (natCodec.enc (.set k v))).wuncompacted >
        COMPACTION_THRESHOLD) := by
      show ¬ (st.wuncompacted + displacedLen st k > COMPACTION_THRESHOLD)
      rw [hd]
      omega
    unfold dispatch KvStore.set Store.write
    dsimp only
    rw [if_neg hcond]
  · have hc : idxContains st.index k = false := by
      rw [idxContains, hk]
      rfl
    have hcp : ¬ (idxContains st.index k = true) := by
      rw [hc]
      exact Bool.false_ne_true
    unfold dispatch KvStore.remove Store.remove
    dsimp only
    rw [if_neg hcp]
    rfl
  · rcases hg : KvStore.get natCodec st2 k2 with ⟨r, stx⟩
    rw [hg] at he
    unfold dispatch
    dsimp only
    rw [hg]
    cases r with
    | error e2 =>
      injection he with he2
      subst he2
      rfl
    | ok u => cases he
  · intro st3 rs
    induction rs generalizing st3 with
    | nil => rfl
    | cons r rest ih =>
      simp only [serveConn, List.length_cons]
      rw [ih]

/-- Witness for the amended C8 on concrete states: an empty engine for
the absent-key cases and the post-compaction state whose `get 9` fails
with `Io` for the error-propagation case. -/
theorem c8_dispatch_mapping_amended_witness :
    idxLookup openedEmpty.index 5 = none ∧
    openedEmpty.wuncompacted ≤ COMPACTION_THRESHOLD ∧
    (KvStore.get natCodec afterPostCompactionSet 9).1 = .error .io ∧
    (dispatch openedEmpty (.get 5) = (.ok none, openedEmpty) ∧
     (dispatch openedEmpty (.set 5 7)).1 = .ok none ∧
     dispatch openedEmpty (.rm 5) =
       (.err ("key: " ++ toString (5 : Nat) ++ " does not exist"), openedEmpty) ∧
     (dispatch afterPostCompactionSet (.get 9)).1 = .err (errToString .io) ∧
     (∀ (st3 : StoreSt Nat) (rs : List (Request Nat Nat)),
       ((serveConn st3 rs).1).length = rs.length)) := by
  have he : (KvStore.get natCodec afterPostCompactionSet 9).1 = .error .io := rfl
  exact ⟨rfl, by decide, he,
    c8_dispatch_mapping_amended openedEmpty afterPostCompactionSet 5 9 7 .io rfl
      (by decide) he⟩

/-- C7: confirmed.  Provided no existing id sits at the very top of the
`u32` range (`max + 1` must not overflow), `open` picks the new active
segment id as `max_existing_id + 1` when the directory holds segments
and `1` when it is empty; the chosen id is nonzero, fits in a `u32`,
and is strictly greater than every id observed in the directory. -/
theorem c7_open_selects_fresh_active_id {K : Type} {V : Type} [LinearOrder K]
    (c : Codec K V) (fs : Files) (st : StoreSt K)
    (h : Store.new c fs = .ok st)
    (hu : ∀ q ∈ fs, q.1 + 1 < 2 ^ 32) :
    (fs = [] → st.wfile_id = 1) ∧
    (fs ≠ [] → ∃ q ∈ fs, st.wfile_id = q.1 + 1 ∧ ∀ r ∈ fs, r.1 ≤ q.1) ∧
    st.wfile_id ≠ 0 ∧ st.wfile_id < 2 ^ 32 ∧
    (∀ q ∈ fs, q.1 < st.wfile_id) := by
  have hid : st.wfile_id = newFileId fs := by
    unfold Store.new at h
    split at h
    · cases h
    · rename_i unc st1 hload
      injection h with h2
      subst h2
      obtain ⟨g1, g2, g3, g4, g5, g6⟩ := loadFilesAux_frame c
        (getInactiveFileIds (initialStoreSt (K := K) fs).files) (initialStoreSt fs) 0
      rw [hload] at g2
      exact g2
  cases hL : (getInactiveFileIds fs).getLast? with
  | none =>
    have hids : getInactiveFileIds fs = [] := List.getLast?_eq_none.mp hL
    have hfs : fs = [] := by
      have hlen : (fs.map Prod.fst).length = 0 := by
        rw [← List.length_insertionSort (r := (· ≤ ·)) (fs.map Prod.fst)]
        rw [show List.insertionSort (· ≤ ·) (fs.map Prod.fst) = getInactiveFileIds fs
          from rfl, hids]
        rfl
      simpa using List.length_eq_zero.mp hlen
    have hone : st.wfile_id = 1 := by
      rw [hid, newFileId, hL]
    subst hfs
    refine ⟨fun _ => hone, fun hne => absurd rfl hne, ?_, ?_, ?_⟩
    · rw [hone]; exact one_ne_zero
    · rw [hone]; norm_num
    · intro q hq; cases hq
  | some m =>
    have hidm : st.wfile_id = m + 1 := by
      rw [hid, newFileId, hL]
    have hsorted : (getInactiveFileIds fs).Sorted (· ≤ ·) :=
      List.sorted_insertionSort (· ≤ ·) (fs.map Prod.fst)
    have hmax : ∀ r ∈ fs, r.1 ≤ m := by
      intro r hr
      exact le_getLast?_of_sorted _ hsorted r.1
        ((List.mem_insertionSort _).mpr (List.mem_map_of_mem _ hr)) m hL
    obtain ⟨q, hq, hqm⟩ := List.mem_map.mp
      ((List.mem_insertionSort _).mp (mem_of_getLast?_eq _ _ hL))
    refine ⟨?_, ?_, ?_, ?_, ?_⟩
    · intro hfs
      subst hfs
      cases hq
    · intro _
      exact ⟨q, hq, hqm ▸ hidm, fun r hr => hqm ▸ hmax r hr⟩
    · rw [hidm]; exact Nat.succ_ne_zero m
    · rw [hidm, ← hqm]
      exact hu q hq
    · intro r hr
      have := hmax r hr
      omega

/-- Witness for C7: opening `c7Dir` (segments 3 and 1) picks active id
4 = 3 + 1, nonzero, in `u32` range and above every existing id. -/
theorem c7_open_selects_fresh_active_id_witness :
    Store.new natCodec c7Dir = .ok c7Opened ∧
    (∀ q ∈ c7Dir, q.1 + 1 < 2 ^ 32) ∧
    ((c7Dir = [] → c7Opened.wfile_id = 1) ∧
     (c7Dir ≠ [] → ∃ q ∈ c7Dir, c7Opened.wfile_id = q.1 + 1 ∧ ∀ r ∈ c7Dir, r.1 ≤ q.1) ∧
     c7Opened.wfile_id ≠ 0 ∧ c7Opened.wfile_id < 2 ^ 32 ∧
     (∀ q ∈ c7Dir, q.1 < c7Opened.wfile_id)) := by
  have h : Store.new natCodec c7Dir = .ok c7Opened := rfl
  exact ⟨h, by decide,
    c7_open_selects_fresh_active_id natCodec c7Dir c7Opened h (by decide)⟩

/-- Witness for the amended C6: removing key 5 from `afterSet57`
(one 15-byte `Set` record, counter 0) succeeds and leaves the counter at
0 + 15. -/
theorem c6_remove_counter_amended_witness :
    idxLookup afterSet57.index 5 = some ⟨1, 0, 15⟩ ∧
    (afterSet57.index.map Prod.fst).Nodup ∧
    afterSet57.wuncompacted + (15 - 0) ≤ COMPACTION_THRESHOLD ∧
    (Store.remove natCodec afterSet57 5).1 = .ok () ∧
    (Store.remove natCodec afterSet57 5).2.wuncompacted =
      afterSet57.wuncompacted + (15 - 0) :=
  ⟨rfl, by decide, by decide,
    (c6_remove_counter_amended natCodec afterSet57 5 ⟨1, 0, 15⟩ rfl (by decide) (by decide)).1,
    (c6_remove_counter_amended natCodec afterSet57 5 ⟨1, 0, 15⟩ rfl (by decide) (by decide)).2⟩

end RustKv
